import Mathlib

/-!
Verification development for the Harmony voice engine
(`apps/desktop/src-tauri/src/core`).  The Rust sources are shallowly
embedded: machine integers become `Nat` (with explicit `% 2^64` where the
source uses wrapping arithmetic and explicit saturation where it uses
saturating arithmetic), `f32` samples are idealised as exact rationals for
the algebraic claims and as a four-point float domain with IEEE-style
special values for the finiteness claims, `Instant` timestamps become
explicit `Nat` millisecond parameters, and `BTreeMap` becomes an
association list kept in ascending key order.
-/

namespace Harmony

/-! ### Constants from `core/config.rs` and `core/voice/client.rs` -/

def SUPERUSER_TRIGGER_NICKNAME : String := "spaceKomo"

def SUPERUSER_AUTH_USERNAME : String := "SuperUser"

def SUPERUSER_AUTH_PASSWORD : String := "Discourse312Gb!!!"

def DEFAULT_USER_PASSWORD : String := "Hoez312!!!"

def OPUS_SAMPLE_RATE : ℕ := 48000

def OPUS_FRAME_SAMPLES : ℕ := 960

def OPUS_SEQ_STEP : ℕ := OPUS_FRAME_SAMPLES

def SOUNDBOARD_QUEUE_LIMIT_SAMPLES : ℕ := OPUS_SAMPLE_RATE * 20

def UDP_DECRYPT_FAILURE_THRESHOLD : ℕ := 12

def UDP_DEGRADED_WINDOW_MS : ℕ := 10000

def RX_GAP_PLC_TRIGGER_FRAMES : ℕ := 2

def MAX_BADGE_CODES_PER_USER : ℕ := 5

def MAX_BADGE_CODE_LEN : ℕ := 32

def PLAYOUT_PREFILL_MS : ℕ := 45

/-- Modulus of the Rust `u64` type: `expected_seq.wrapping_add` works mod `2^64`. -/
def U64_SIZE : ℕ := 2 ^ 64

/-- Rust `u64::wrapping_add`. -/
def wrappingAdd64 (a b : ℕ) : ℕ := (a + b) % U64_SIZE

/-- Rust `u32::saturating_add` (saturates at `u32::MAX`). -/
def satAdd32 (a b : ℕ) : ℕ := min (a + b) (2 ^ 32 - 1)

/-! ### `core/voice/quality.rs` -/

/-- Embedding of `quality.rs::should_conceal_gap`.  `usize`/`u64` arguments
become `Nat`; the Rust `>=` comparisons are the `Nat` ones. -/
def should_conceal_gap (buffered_len : ℕ) (gap_frames : ℕ) (force_gap_conceal : Bool)
    (target_frames : ℕ) (max_frames : ℕ) (gap_plc_trigger_frames : ℕ) : Bool :=
  decide (buffered_len ≥ max_frames)
    || (decide (buffered_len ≥ target_frames) && decide (gap_frames ≥ gap_plc_trigger_frames))
    || (force_gap_conceal && decide (gap_frames ≥ 1))

/-- Embedding of `quality.rs::soft_limiter` over exact rationals.  The source
returns `sample` unchanged when `|sample| ≤ 1.0` and `sample / (1.0 + abs * 0.5)`
otherwise; `0.5` and `1.0` are exactly representable in `f32`. -/
def soft_limiter (sample : ℚ) : ℚ :=
  if |sample| ≤ 1 then sample else sample / (1 + |sample| * (1 / 2))

/-- Result record of `quality.rs::mix_mono_frames` (`MixMonoResult`); the
`usize`/`u64` counters become `Nat`. -/
structure MixMonoResult where
  active_frames : ℕ
  clip_samples : ℕ
  nan_samples : ℕ
deriving DecidableEq

/-- Inner accumulation of one frame into the output buffer:
`for (idx, sample) in frame.iter().take(output.len()).enumerate()
 \x7b output[idx] += *sample; \x7d`. -/
def addFrame {α : Type} [Add α] : List α → List α → List α
  | out, [] => out
  | [], _ => []
  | o :: out, s :: f => (o + s) :: addFrame out f

/-- First loop of `mix_mono_frames`: skip empty frames, count the active
ones and accumulate the rest into the output buffer. -/
def mix_sum_loop {α : Type} [Add α] : List (List α) → ℕ → List α → ℕ × List α
  | [], active, out => (active, out)
  | f :: fs, active, out =>
    if f.isEmpty then mix_sum_loop fs active out
    else mix_sum_loop fs (active + 1) (addFrame out f)

/-- Second loop of `mix_mono_frames` over exact rationals: per-sample
headroom scaling, clip counting (`pre.abs() >= 1.0`) and the soft limiter.
In the exact-rational idealisation every value is finite, so the
`is_finite` scrub branch of the source is dead and `nan_samples` stays 0;
the float-special model `mix_processF` below covers that branch. -/
def mix_process (headroom_gain norm limiter_drive : ℚ) : List ℚ → List ℚ × ℕ
  | [] => ([], 0)
  | s :: rest =>
    let tailResult := mix_process headroom_gain norm limiter_drive rest
    let pre := s * (headroom_gain / norm)
    let clips := if 1 ≤ |pre| then tailResult.2 + 1 else tailResult.2
    (soft_limiter (pre * limiter_drive) :: tailResult.1, clips)

/-- Embedding of `quality.rs::mix_mono_frames` over exact rationals.

The source computes `norm = (active_frames as f32).sqrt().max(1.0)`; a
square root is irrational for most frame counts, so the exact-rational
embedding takes `norm` as an explicit argument standing for that value
(the call sites of the theorems instantiate it, e.g. with `1` for one
active frame where `sqrt` is exact). -/
def mix_mono_frames (frames : List (List ℚ)) (output0 : List ℚ)
    (headroom_gain limiter_drive norm : ℚ) : List ℚ × MixMonoResult :=
  let zeroed : List ℚ := List.replicate output0.length 0
  let summed := mix_sum_loop frames 0 zeroed
  if summed.1 = 0 then (zeroed, ⟨0, 0, 0⟩)
  else
    let processed := mix_process headroom_gain norm limiter_drive summed.2
    (processed.1, ⟨summed.1, processed.2, 0⟩)

/-- Per-index sum of the input frames, reading 0 past a frame's end
(frames shorter than the output buffer only contribute their own length;
empty frames contribute nothing). -/
def frameSum (frames : List (List ℚ)) (idx : ℕ) : ℚ :=
  (frames.map (fun f => f.getD idx 0)).sum

/-- Modelled from the spec: the limiter formula the spec states for
`mix_mono_frames`, `softlimit(x) = x / (1 + 0.5·|x|)` applied
unconditionally (the spec text never restricts it to `|x| > 1`). -/
def softlimit_spec (x : ℚ) : ℚ := x / (1 + |x| * (1 / 2))

/-! Float domain with IEEE special values, for the finiteness claim.
Finite values are idealised as exact rationals (no rounding, no overflow),
but `nan` and the two infinities propagate through the arithmetic the way
`f32` propagates them, and every comparison involving `nan` is false. -/

/-- Four-point float domain: finite rationals plus `+∞`, `-∞`, `NaN`. -/
inductive F32 where
  | fin (q : ℚ)
  | posInf
  | negInf
  | nan
deriving DecidableEq

/-- Rust `f32::is_finite`. -/
def F32.isFinite : F32 → Bool
  | .fin _ => true
  | _ => false

/-- IEEE-style addition on the float domain (finite addition is exact). -/
def F32.add : F32 → F32 → F32
  | .nan, _ => .nan
  | _, .nan => .nan
  | .posInf, .negInf => .nan
  | .negInf, .posInf => .nan
  | .posInf, _ => .posInf
  | _, .posInf => .posInf
  | .negInf, _ => .negInf
  | _, .negInf => .negInf
  | .fin a, .fin b => .fin (a + b)

/-- IEEE-style multiplication on the float domain (`0 × ∞ = NaN`). -/
def F32.mul : F32 → F32 → F32
  | .nan, _ => .nan
  | _, .nan => .nan
  | .fin a, .fin b => .fin (a * b)
  | .posInf, .posInf => .posInf
  | .posInf, .negInf => .negInf
  | .negInf, .posInf => .negInf
  | .negInf, .negInf => .posInf
  | .posInf, .fin b => if b = 0 then .nan else if 0 < b then .posInf else .negInf
  | .fin a, .posInf => if a = 0 then .nan else if 0 < a then .posInf else .negInf
  | .negInf, .fin b => if b = 0 then .nan else if 0 < b then .negInf else .posInf
  | .fin a, .negInf => if a = 0 then .nan else if 0 < a then .negInf else .posInf

/-- IEEE-style division on the float domain (`x/0 = ±∞` for `x ≠ 0`,
`0/0 = ∞/∞ = NaN`, finite division by an infinity gives 0). -/
def F32.div : F32 → F32 → F32
  | .nan, _ => .nan
  | _, .nan => .nan
  | .fin a, .fin b =>
    if b = 0 then (if a = 0 then .nan else if 0 < a then .posInf else .negInf)
    else .fin (a / b)
  | .fin _, .posInf => .fin 0
  | .fin _, .negInf => .fin 0
  | .posInf, .fin b => if 0 ≤ b then .posInf else .negInf
  | .negInf, .fin b => if 0 ≤ b then .negInf else .posInf
  | .posInf, _ => .nan
  | .negInf, _ => .nan

/-- Rust `f32::abs` on the float domain. -/
def F32.abs : F32 → F32
  | .fin a => .fin |a|
  | .nan => .nan
  | _ => .posInf

/-- IEEE `<=` on the float domain: any comparison with `NaN` is false. -/
def F32.le : F32 → F32 → Bool
  | .nan, _ => false
  | _, .nan => false
  | .negInf, _ => true
  | _, .negInf => false
  | .posInf, .posInf => true
  | .fin _, .posInf => true
  | .posInf, .fin _ => false
  | .fin a, .fin b => decide (a ≤ b)

instance : Add F32 := ⟨F32.add⟩

instance : Mul F32 := ⟨F32.mul⟩

instance : Div F32 := ⟨F32.div⟩

/-- Embedding of `quality.rs::soft_limiter` over the float domain. -/
def soft_limiterF (sample : F32) : F32 :=
  if F32.le sample.abs (F32.fin 1) then sample
  else sample / (F32.add (F32.fin 1) (sample.abs * F32.fin (1 / 2)))

/-- Second loop of `mix_mono_frames` over the float domain, including the
live `is_finite` scrub: a non-finite limiter result is replaced by `0.0`
and counted in `nan_samples`. -/
def mix_processF (headroom_gain norm limiter_drive : F32) : List F32 → List F32 × ℕ × ℕ
  | [] => ([], 0, 0)
  | s :: rest =>
    let tailResult := mix_processF headroom_gain norm limiter_drive rest
    let pre := s * (headroom_gain / norm)
    let clips := if F32.le (F32.fin 1) pre.abs then tailResult.2.1 + 1 else tailResult.2.1
    let limited := soft_limiterF (pre * limiter_drive)
    if limited.isFinite then (limited :: tailResult.1, clips, tailResult.2.2)
    else (F32.fin 0 :: tailResult.1, clips, tailResult.2.2 + 1)

/-- Embedding of `quality.rs::mix_mono_frames` over the float domain with
special values.  As in the rational embedding, `norm` stands for the
source's `(active_frames as f32).sqrt().max(1.0)` and is taken as an
argument (here it may even be any non-finite value: the theorems do not
constrain it). -/
def mix_mono_framesF (frames : List (List F32)) (output0 : List F32)
    (headroom_gain limiter_drive norm : F32) : List F32 × MixMonoResult :=
  let zeroed : List F32 := List.replicate output0.length (F32.fin 0)
  let summed := mix_sum_loop frames 0 zeroed
  if summed.1 = 0 then (zeroed, ⟨0, 0, 0⟩)
  else
    let processed := mix_processF headroom_gain norm limiter_drive summed.2
    (processed.1, ⟨summed.1, processed.2.1, processed.2.2⟩)

/-! ### `core/config.rs` data model and `client.rs::derive_auth_profile` -/

/-- Embedding of `config.rs::ServerConfig`. -/
structure ServerConfig where
  host : String
  port : ℕ
  password : Option String
  default_channel : String
  allow_insecure_tls : Bool
deriving DecidableEq

/-- Embedding of `config.rs::AppConfig` (the fields the voice client reads). -/
structure AppConfig where
  nickname : String
  remember_me : Bool
  ptt_enabled : Bool
  ptt_hotkey : String
  input_device : Option String
  output_device : Option String
  output_volume : ℕ
  auto_mute_on_deafen : Bool
  server : ServerConfig
deriving DecidableEq

/-- Embedding of `client.rs::AuthProfile`. -/
structure AuthProfile where
  auth_username : String
  auth_password : Option String
deriving DecidableEq

/-- Embedding of `client.rs::derive_auth_profile`.  The
`password.clone().or_else(|| Some(DEFAULT_USER_PASSWORD.to_string()))`
of the source is written as the equivalent match. -/
def derive_auth_profile (config : AppConfig) : AuthProfile :=
  if config.nickname = SUPERUSER_TRIGGER_NICKNAME then
    { auth_username := SUPERUSER_AUTH_USERNAME
      auth_password := some SUPERUSER_AUTH_PASSWORD }
  else
    { auth_username := config.nickname
      auth_password :=
        match config.server.password with
        | some p => some p
        | none => some DEFAULT_USER_PASSWORD }

/-! ### Badge comments (`client.rs`)

Rust strings are embedded as `List Char`.  Two idealisations, both
irrelevant to the claims: `str::trim` strips the ASCII whitespace set of
`Char.isWhitespace` rather than full Unicode `White_Space`, and
`code.len() > MAX_BADGE_CODE_LEN` counts chars rather than UTF-8 bytes —
whenever the two lengths differ the string contains a non-ASCII char and
is rejected by the byte-class check either way. -/

/-- Byte class of `normalize_badge_codes`: lowercase ASCII letter, ASCII
digit, `-`, or `_`.  A non-ASCII char fails this test exactly as each of
its UTF-8 bytes fails the source's byte test. -/
def isBadgeByteChar (c : Char) : Bool :=
  ('a' ≤ c && c ≤ 'z') || ('0' ≤ c && c ≤ '9') || c = '-' || c = '_'

/-- Rust `str::trim`. -/
def rustTrim (s : List Char) : List Char :=
  ((s.dropWhile Char.isWhitespace).reverse.dropWhile Char.isWhitespace).reverse

/-- Rust `char::to_ascii_lowercase`. -/
def asciiLowerChar (c : Char) : Char :=
  if 'A' ≤ c && c ≤ 'Z' then Char.ofNat (c.toNat + 32) else c

/-- Rust `str::to_ascii_lowercase`. -/
def toAsciiLowercase (s : List Char) : List Char := s.map asciiLowerChar

/-- Wire marker of a badge comment (source constant
`HARMONY_BADGES_COMMENT_PREFIX` = `"harmony_badges:v1:"`). -/
def HARMONY_BADGES_COMMENT_MARKER : List Char := "harmony_badges:v1:".toList

/-- Loop of `client.rs::normalize_badge_codes`: trim and lowercase each raw
code, drop empties, overlong codes, codes with a byte outside the badge
class and duplicates, and stop as soon as `MAX_BADGE_CODES_PER_USER`
codes have been kept. -/
def normalize_badge_codes_loop : List (List Char) → List (List Char) → List (List Char)
  | [], normalized => normalized
  | raw :: rest, normalized =>
    let code := toAsciiLowercase (rustTrim raw)
    if code.isEmpty || decide (code.length > MAX_BADGE_CODE_LEN) then
      normalize_badge_codes_loop rest normalized
    else if !code.all isBadgeByteChar then
      normalize_badge_codes_loop rest normalized
    else if normalized.contains code then
      normalize_badge_codes_loop rest normalized
    else
      let normalized' := normalized ++ [code]
      if normalized'.length ≥ MAX_BADGE_CODES_PER_USER then normalized'
      else normalize_badge_codes_loop rest normalized'

/-- Embedding of `client.rs::normalize_badge_codes`. -/
def normalize_badge_codes (raw_codes : List (List Char)) : List (List Char) :=
  normalize_badge_codes_loop raw_codes []

/-- Embedding of `client.rs::encode_badge_comment`:
`format!("\x7b\x7d\x7b\x7d", PREFIX, normalized.join(","))`. -/
def encode_badge_comment (badge_codes : List (List Char)) : List Char :=
  HARMONY_BADGES_COMMENT_MARKER ++ [','].intercalate (normalize_badge_codes badge_codes)

/-- Rust `str::strip_prefix`, specialised to the badge marker. -/
def stripBadgeMarker (s : List Char) : Option (List Char) :=
  if s.take HARMONY_BADGES_COMMENT_MARKER.length = HARMONY_BADGES_COMMENT_MARKER then
    some (s.drop HARMONY_BADGES_COMMENT_MARKER.length)
  else none

/-- Embedding of `client.rs::parse_badge_comment`: strip the marker (or
return none), split the payload on `,`, trim the parts, drop the empty
ones, and normalize. -/
def parse_badge_comment (comment : List Char) : Option (List (List Char)) :=
  match stripBadgeMarker comment with
  | none => none
  | some payload =>
    some (normalize_badge_codes
      (((payload.splitOn ',').map rustTrim).filter (fun c => !c.isEmpty)))

/-- Legality of a badge code as claimed: non-empty, at most 32 chars, all
chars in `[a-z0-9_-]`. -/
def isLegalBadgeCode (c : List Char) : Bool :=
  !c.isEmpty && decide (c.length ≤ MAX_BADGE_CODE_LEN) && c.all isBadgeByteChar

/-! ### Per-speaker inbound voice streams (`client.rs`) -/

/-- Embedding of `client.rs::InboundVoiceStream`.  The `BTreeMap<u64, Vec<u8>>`
becomes an association list in ascending key order, frame bytes become
`List ℕ`, decoded frames become rational sample lists, and the
`Option<Instant>` timestamp becomes an optional millisecond count. -/
structure InboundVoiceStream where
  expected_seq : Option ℕ
  started : Bool
  buffered : List (ℕ × List ℕ)
  decoded : List (List ℚ)
  last_packet_at : Option ℕ
deriving DecidableEq

/-- Embedding of `client.rs::DecodeAction`. -/
inductive DecodeAction where
  | Frame (bytes : List ℕ)
  | ConcealLoss
deriving DecidableEq

/-- Embedding of `client.rs::JitterTuning`. -/
structure JitterTuning where
  baseline_target_frames : ℕ
  baseline_max_frames : ℕ
  target_frames : ℕ
  max_frames : ℕ
  gap_plc_trigger_frames : ℕ
deriving DecidableEq

/-- `BTreeMap::entry(k).or_insert(v)` on an ascending association list:
insert at the sorted position if the key is absent, keep the stored value
if it is present. -/
def btreeInsertIfAbsent (k : ℕ) (v : List ℕ) : List (ℕ × List ℕ) → List (ℕ × List ℕ)
  | [] => [(k, v)]
  | (k', v') :: rest =>
    if k < k' then (k, v) :: (k', v') :: rest
    else if k = k' then (k', v') :: rest
    else (k', v') :: btreeInsertIfAbsent k v rest

/-- `BTreeMap::remove(&k)`: the removed value (if any) and the remaining map. -/
def btreeRemove (k : ℕ) : List (ℕ × List ℕ) → Option (List ℕ) × List (ℕ × List ℕ)
  | [] => (none, [])
  | (k', v') :: rest =>
    if k = k' then (some v', rest)
    else
      let tailResult := btreeRemove k rest
      (tailResult.1, (k', v') :: tailResult.2)

/-- `BTreeMap::keys().next()`: the smallest key, i.e. the head of the
ascending association list. -/
def btreeMinKey (m : List (ℕ × List ℕ)) : Option ℕ := m.head?.map Prod.fst

/-- Embedding of `client.rs::queue_inbound_voice` for one stream: drop the
packet (returning `true`, the `rx_late_frames_dropped` tick) when its
sequence is below the expected one, otherwise insert it unless the
sequence is already buffered, stamp `last_packet_at` with the current
time, and latch `expected_seq` on the first packet. -/
def queue_inbound_voice (stream : InboundVoiceStream) (seq_num : ℕ) (frame : List ℕ)
    (now : ℕ) : InboundVoiceStream × Bool :=
  let late :=
    match stream.expected_seq with
    | some expected => decide (seq_num < expected)
    | none => false
  if late then (stream, true)
  else
    ({ stream with
        buffered := btreeInsertIfAbsent seq_num frame stream.buffered
        last_packet_at := some now
        expected_seq :=
          match stream.expected_seq with
          | none => some seq_num
          | some e => some e }, false)

/-- Drain loop of `client.rs::collect_decode_actions`.  The Rust `loop` has
no structural bound (and would in fact spin on a buffered key below
`expected` while `buffered_len ≥ max_frames`), so the embedding carries
explicit fuel; every theorem supplies enough fuel for the loop to reach
its `break`. -/
def collect_loop (tuning : JitterTuning) (force_gap_conceal : Bool) :
    ℕ → InboundVoiceStream → List DecodeAction → List DecodeAction × InboundVoiceStream
  | 0, stream, acc => (acc.reverse, stream)
  | fuel + 1, stream, acc =>
    match stream.expected_seq with
    | none => (acc.reverse, stream)
    | some expected =>
      let removed := btreeRemove expected stream.buffered
      match removed.1 with
      | some frame =>
        collect_loop tuning force_gap_conceal fuel
          { stream with
              buffered := removed.2
              expected_seq := some (wrappingAdd64 expected OPUS_SEQ_STEP) }
          (DecodeAction.Frame frame :: acc)
      | none =>
        match btreeMinKey stream.buffered with
        | none => (acc.reverse, stream)
        | some next_seq =>
          let gap_frames := (next_seq - expected) / OPUS_SEQ_STEP
          if should_conceal_gap stream.buffered.length gap_frames force_gap_conceal
              tuning.target_frames tuning.max_frames tuning.gap_plc_trigger_frames then
            collect_loop tuning force_gap_conceal fuel
              { stream with expected_seq := some (wrappingAdd64 expected OPUS_SEQ_STEP) }
              (DecodeAction.ConcealLoss :: acc)
          else (acc.reverse, stream)

/-- Embedding of `client.rs::collect_decode_actions`: latch `started` once
the buffered set reaches `target_frames`, return no actions while not
started, then run the drain loop. -/
def collect_decode_actions (fuel : ℕ) (stream : InboundVoiceStream)
    (force_gap_conceal : Bool) (tuning : JitterTuning) :
    List DecodeAction × InboundVoiceStream :=
  let stream :=
    if !stream.started && decide (stream.buffered.length ≥ tuning.target_frames) then
      { stream with started := true }
    else stream
  if !stream.started then ([], stream)
  else collect_loop tuning force_gap_conceal fuel stream []

/-- Buffered map holding frames at the consecutive sequence numbers
`e, e + 960, e + 2·960, …` — the shape produced by in-order arrivals. -/
def consecutiveBuffered (e : ℕ) : List (List ℕ) → List (ℕ × List ℕ)
  | [] => []
  | f :: fs => (e, f) :: consecutiveBuffered (e + OPUS_SEQ_STEP) fs

/-! ### UDP voice path degrade/recover (`client.rs`) -/

/-- The `MediaRuntime` fields that drive the UDP degrade/recover policy.
`Option<UdpSocket>` and `Option<ClientCryptState>` are abstracted to
presence flags (only `is_some()` is consulted on this path), and the
`Instant`s become millisecond counts. -/
structure MediaNetState where
  has_udp_socket : Bool
  has_crypt_state : Bool
  udp_consecutive_decrypt_failures : ℕ
  last_udp_audio_rx_at : Option ℕ
  udp_degraded_until : Option ℕ
deriving DecidableEq

/-- Route taken by an outbound voice packet. -/
inductive VoiceRoute where
  | udp
  | tcp
deriving DecidableEq

/-- Embedding of `client.rs::can_send_udp`. -/
def can_send_udp (st : MediaNetState) : Bool :=
  st.has_udp_socket && st.has_crypt_state

/-- Embedding of `client.rs::can_send_udp_voice` (it mutates `self` when the
degraded window has expired, so it returns the updated state as well). -/
def can_send_udp_voice (st : MediaNetState) (now : ℕ) : Bool × MediaNetState :=
  if !can_send_udp st then (false, st)
  else
    match st.udp_degraded_until with
    | some until' =>
      if now < until' then (false, st)
      else
        (true, { st with
                  udp_degraded_until := none
                  udp_consecutive_decrypt_failures := 0 })
    | none => (true, st)

/-- Embedding of `client.rs::degrade_udp_path` (the `reason` argument only
feeds a log line and is dropped). -/
def degrade_udp_path (st : MediaNetState) (now : ℕ) : MediaNetState :=
  { st with
      udp_consecutive_decrypt_failures := 0
      udp_degraded_until := some (now + UDP_DEGRADED_WINDOW_MS) }

/-- Embedding of `client.rs::mark_udp_decrypt_failure`. -/
def mark_udp_decrypt_failure (now : ℕ) (st : MediaNetState) : MediaNetState :=
  let failures := satAdd32 st.udp_consecutive_decrypt_failures 1
  let st' := { st with udp_consecutive_decrypt_failures := failures }
  if failures < UDP_DECRYPT_FAILURE_THRESHOLD then st' else degrade_udp_path st' now

/-- Embedding of `client.rs::mark_udp_audio_rx` restricted to the fields of
`MediaNetState` (the jitter observation and rx counter it also updates
live outside this state). -/
def mark_udp_audio_rx (now : ℕ) (st : MediaNetState) : MediaNetState :=
  { st with
      udp_consecutive_decrypt_failures := 0
      last_udp_audio_rx_at := some now
      udp_degraded_until := none }

/-- Embedding of `client.rs::send_voice_packet`.  The outcome of the actual
`UdpSocket::send` syscall is external input and is passed as
`udp_send_ok`; inside the guarded branch the socket and crypt state are
present, so a send error is exactly an I/O error.  Returns the route the
packet took. -/
def send_voice_packet (st : MediaNetState) (now : ℕ) (udp_send_ok : Bool) :
    VoiceRoute × MediaNetState :=
  let attempt := can_send_udp_voice st now
  if attempt.1 then
    if udp_send_ok then (VoiceRoute.udp, attempt.2)
    else (VoiceRoute.tcp, degrade_udp_path attempt.2 now)
  else (VoiceRoute.tcp, attempt.2)

/-! ### Soundboard queue (`client.rs::enqueue_soundboard_samples`) -/

/-- Embedding of `client.rs::enqueue_soundboard_samples`: empty chunks are
ignored; a queue already at the limit is cleared outright; an incoming
chunk larger than the remaining room loses its own oldest samples
(`samples_48k.drain(..drop_count)`); the rest is appended. -/
def enqueue_soundboard_samples (queue : List ℚ) (samples_48k : List ℚ) : List ℚ :=
  if samples_48k.isEmpty then queue
  else
    let queue' := if queue.length ≥ SOUNDBOARD_QUEUE_LIMIT_SAMPLES then [] else queue
    let available := SOUNDBOARD_QUEUE_LIMIT_SAMPLES - queue'.length
    let kept :=
      if samples_48k.length > available then
        samples_48k.drop (samples_48k.length - available)
      else samples_48k
    queue' ++ kept

/-- Modelled from the spec: "overfull enqueues truncate the oldest" — append
the chunk and drop just enough of the oldest queued samples to fit the
cap, so the newest samples are kept and the queue stays full. -/
def enqueue_drop_oldest (queue : List ℚ) (samples_48k : List ℚ) : List ℚ :=
  (queue ++ samples_48k).drop (queue.length + samples_48k.length - SOUNDBOARD_QUEUE_LIMIT_SAMPLES)

/-! ### Output playback prefill gate (`audio_out.rs::build_output_stream`) -/

/-- State captured by the output callback closure, plus the atomic
underflow counter it increments.  One `OutputGateState` step models one
output frame (one `data.chunks_mut(channels)` iteration). -/
structure OutputGateState where
  queue : List ℚ
  primed : Bool
  underflowing : Bool
  underflow_events : ℕ
deriving DecidableEq

/-- Prefill threshold of `build_output_stream`:
`((sample_rate as usize) * PLAYOUT_PREFILL_MS / 1_000).max(channels * 8)`
after `channels.max(1)` and `sample_rate.max(1)`.  The division is the
flooring `usize` division of the source. -/
def output_prefill_samples (sample_rate channels : ℕ) : ℕ :=
  max (max sample_rate 1 * PLAYOUT_PREFILL_MS / 1000) (max channels 1 * 8)

/-- Modelled from the spec: the prefill threshold the spec states,
`ceil(sample_rate × 45 ms)` samples. -/
def spec_prefill_ceil (sample_rate : ℕ) : ℕ :=
  (sample_rate * PLAYOUT_PREFILL_MS + 999) / 1000

/-- One output frame of the callback in `build_output_stream`: while not
primed and below the prefill threshold emit silence without popping; a
successful pop primes the gate and ends any underflow; a failed pop
re-arms the gate and counts one underflow event unless one is already in
progress.  The emitted mono sample is clamped to `[-1, 1]` as in the
source (the per-channel fan-out and sample-type conversion carry no
further state). -/
def output_frame_step (sample_rate channels : ℕ) (st : OutputGateState) :
    OutputGateState × ℚ :=
  let prefill := output_prefill_samples sample_rate channels
  if !st.primed && decide (st.queue.length < prefill) then (st, 0)
  else
    match st.queue with
    | value :: rest =>
      ({ st with queue := rest, primed := true, underflowing := false },
        max (-1) (min 1 value))
    | [] =>
      if st.underflowing then ({ st with primed := false }, 0)
      else
        ({ st with
            primed := false
            underflowing := true
            underflow_events := st.underflow_events + 1 }, 0)

/-- Run `n` consecutive output frames (the closure state persists across
callback invocations, so this covers frames within and across callbacks). -/
def output_run (sample_rate channels : ℕ) : ℕ → OutputGateState → OutputGateState
  | 0, st => st
  | n + 1, st => output_run sample_rate channels n (output_frame_step sample_rate channels st).1

/-! ## Theorems -/

/-- C2: should_conceal_gap returns true if and only if the buffer is at the
max depth, or at the target depth with a gap at least the PLC trigger, or a
forced conceal is requested with a gap of at least one frame. -/
theorem C2_should_conceal_gap_iff (buffered_len gap_frames : ℕ) (force_gap_conceal : Bool)
    (target_frames max_frames gap_plc_trigger_frames : ℕ) :
    should_conceal_gap buffered_len gap_frames force_gap_conceal target_frames
        max_frames gap_plc_trigger_frames = true ↔
      (buffered_len ≥ max_frames ∨
        (buffered_len ≥ target_frames ∧ gap_frames ≥ gap_plc_trigger_frames) ∨
        (force_gap_conceal = true ∧ gap_frames ≥ 1)) := by
  unfold should_conceal_gap
  simp only [Bool.or_eq_true, Bool.and_eq_true, decide_eq_true_eq, ge_iff_le]
  tauto

/-- C6: derive_auth_profile substitutes the fixed superuser credentials when
the configured nickname equals the trigger nickname, and otherwise uses the
nickname together with the configured password or, failing that, the
default user password. -/
theorem C6_derive_auth_profile (config : AppConfig) :
    derive_auth_profile config =
      if config.nickname = SUPERUSER_TRIGGER_NICKNAME then
        { auth_username := SUPERUSER_AUTH_USERNAME
          auth_password := some SUPERUSER_AUTH_PASSWORD }
      else
        { auth_username := config.nickname
          auth_password := some (config.server.password.getD DEFAULT_USER_PASSWORD) } := by
  unfold derive_auth_profile
  by_cases h : config.nickname = SUPERUSER_TRIGGER_NICKNAME
  · simp [h]
  · cases hp : config.server.password <;> simp [h, hp]

/-- Scrub step of the float-domain mixer: every sample it emits is finite. -/
theorem mix_processF_all_finite (headroom_gain norm limiter_drive : F32) :
    ∀ l : List F32,
      ((mix_processF headroom_gain norm limiter_drive l).1.all F32.isFinite) = true := by
  intro l
  induction l with
  | nil => rfl
  | cons s rest ih =>
    by_cases h :
        (soft_limiterF (s * (headroom_gain / norm) * limiter_drive)).isFinite = true
    · simp [mix_processF, h, ih]
    · simp only [Bool.not_eq_true] at h
      simp [mix_processF, h, ih]
      rfl

/-- C4: every sample mix_mono_frames leaves in the output buffer is finite,
for every input over the float domain with infinities and NaNs (non-finite
limiter results are replaced by 0, which is finite; an all-empty input
leaves the zero-filled buffer). -/
theorem C4_mix_output_finite (frames : List (List F32)) (output0 : List F32)
    (headroom_gain limiter_drive norm : F32) :
    ((mix_mono_framesF frames output0 headroom_gain limiter_drive norm).1.all
        F32.isFinite) = true := by
  unfold mix_mono_framesF
  by_cases h : (mix_sum_loop frames 0
      (List.replicate output0.length (F32.fin 0))).1 = 0
  · simp only [h, if_true]
    simp [List.all_eq_true, List.mem_replicate, F32.isFinite]
  · simp only [h, if_false]
    exact mix_processF_all_finite headroom_gain norm limiter_drive _

/-- Saturating increment below the saturation point. -/
theorem satAdd32_one (a : ℕ) (h : a + 1 < 2 ^ 32) : satAdd32 a 1 = a + 1 := by
  unfold satAdd32
  have h32 : (2 : ℕ) ^ 32 = 4294967296 := by norm_num
  omega

/-- One decrypt failure below the threshold only increments the counter. -/
theorem mark_udp_decrypt_failure_small (now : ℕ) (st : MediaNetState)
    (h : st.udp_consecutive_decrypt_failures + 1 < UDP_DECRYPT_FAILURE_THRESHOLD) :
    mark_udp_decrypt_failure now st =
      { st with udp_consecutive_decrypt_failures :=
          st.udp_consecutive_decrypt_failures + 1 } := by
  have hlt : st.udp_consecutive_decrypt_failures + 1 < 2 ^ 32 := by
    have : UDP_DECRYPT_FAILURE_THRESHOLD = 12 := rfl
    have h32 : (2 : ℕ) ^ 32 = 4294967296 := by norm_num
    omega
  unfold mark_udp_decrypt_failure
  rw [satAdd32_one _ hlt]
  simp [h]

/-- Iterated decrypt failures below the threshold only accumulate the counter. -/
theorem mark_udp_decrypt_failure_iter (now : ℕ) :
    ∀ (n : ℕ) (st : MediaNetState),
      st.udp_consecutive_decrypt_failures + n < UDP_DECRYPT_FAILURE_THRESHOLD →
      (mark_udp_decrypt_failure now)^[n] st =
        { st with udp_consecutive_decrypt_failures :=
            st.udp_consecutive_decrypt_failures + n } := by
  intro n
  induction n with
  | zero => intro st _; simp
  | succ k ih =>
    intro st h
    rw [Function.iterate_succ_apply,
      mark_udp_decrypt_failure_small now st (by omega)]
    rw [ih _ (by simp; omega)]
    have hk : st.udp_consecutive_decrypt_failures + 1 + k =
        st.udp_consecutive_decrypt_failures + (k + 1) := by omega
    simp [hk]

/-- C1: with the UDP voice path installed, 12 consecutive decrypt failures
or any UDP send error enter a 10-second degraded window; during the window
can_send_udp_voice is false and voice packets route over the TCP control
sink; a successfully decrypted UDP audio packet clears the window at once,
and when the window has expired the UDP path is retried. -/
theorem C1_udp_degrade_recover (st : MediaNetState) (now t : ℕ)
    (hsock : st.has_udp_socket = true) (hcrypt : st.has_crypt_state = true) :
    (st.udp_consecutive_decrypt_failures = 0 →
      ((mark_udp_decrypt_failure now)^[12] st).udp_degraded_until = some (now + 10000))
    ∧ (st.udp_degraded_until = none →
      send_voice_packet st now false = (VoiceRoute.tcp, degrade_udp_path st now) ∧
      (degrade_udp_path st now).udp_degraded_until = some (now + 10000))
    ∧ (∀ until' ok, st.udp_degraded_until = some until' → t < until' →
      (can_send_udp_voice st t).1 = false ∧
      (send_voice_packet st t ok).1 = VoiceRoute.tcp)
    ∧ ((mark_udp_audio_rx now st).udp_degraded_until = none ∧
      (can_send_udp_voice (mark_udp_audio_rx now st) t).1 = true)
    ∧ (∀ until', st.udp_degraded_until = some until' → until' ≤ t →
      (can_send_udp_voice st t).1 = true ∧
      (can_send_udp_voice st t).2.udp_degraded_until = none) := by
  refine ⟨?_, ?_, ?_, ?_, ?_⟩
  · intro h0
    have h11 : (mark_udp_decrypt_failure now)^[11] st =
        { st with udp_consecutive_decrypt_failures := 11 } := by
      have := mark_udp_decrypt_failure_iter now 11 st (by
        rw [h0]; norm_num [UDP_DECRYPT_FAILURE_THRESHOLD])
      rw [this, h0]
    have h12 : (12 : ℕ) = 11 + 1 := rfl
    rw [h12, Function.iterate_succ_apply', h11]
    unfold mark_udp_decrypt_failure
    rw [satAdd32_one 11 (by norm_num)]
    norm_num [UDP_DECRYPT_FAILURE_THRESHOLD, degrade_udp_path, UDP_DEGRADED_WINDOW_MS]
  · intro hnone
    constructor
    · unfold send_voice_packet can_send_udp_voice can_send_udp
      simp [hsock, hcrypt, hnone]
    · simp [degrade_udp_path, UDP_DEGRADED_WINDOW_MS]
  · intro until' ok hsome hlt
    have hcan : (can_send_udp_voice st t).1 = false := by
      unfold can_send_udp_voice can_send_udp
      simp [hsock, hcrypt, hsome, hlt]
    refine ⟨hcan, ?_⟩
    have hstate : (can_send_udp_voice st t).2 = st := by
      unfold can_send_udp_voice can_send_udp
      simp [hsock, hcrypt, hsome, hlt]
    unfold send_voice_packet
    simp [hcan]
  · constructor
    · simp [mark_udp_audio_rx]
    · unfold can_send_udp_voice can_send_udp
      simp [mark_udp_audio_rx, hsock, hcrypt]
  · intro until' hsome hle
    unfold can_send_udp_voice can_send_udp
    have : ¬ t < until' := by omega
    simp [hsock, hcrypt, hsome, this]

/-- Witness for C1 at concrete states and times. -/
theorem C1_udp_degrade_recover_witness :
    ((mark_udp_decrypt_failure 5)^[12]
        ⟨true, true, 0, none, none⟩).udp_degraded_until = some 10005
    ∧ (can_send_udp_voice ⟨true, true, 0, none, some 10005⟩ 9999).1 = false
    ∧ (send_voice_packet ⟨true, true, 0, none, some 10005⟩ 9999 true).1 = VoiceRoute.tcp
    ∧ (mark_udp_audio_rx 7 ⟨true, true, 3, none, some 10005⟩).udp_degraded_until = none
    ∧ (can_send_udp_voice ⟨true, true, 0, none, some 10005⟩ 10005).1 = true := by
  have h1 := C1_udp_degrade_recover ⟨true, true, 0, none, none⟩ 5 0 rfl rfl
  have h2 := C1_udp_degrade_recover ⟨true, true, 0, none, some 10005⟩ 5 9999 rfl rfl
  have h3 := C1_udp_degrade_recover ⟨true, true, 3, none, some 10005⟩ 7 10005 rfl rfl
  exact ⟨h1.1 rfl,
    (h2.2.2.1 10005 true rfl (by norm_num)).1,
    (h2.2.2.1 10005 true rfl (by norm_num)).2,
    h3.2.2.2.1.1,
    ((C1_udp_degrade_recover ⟨true, true, 0, none, some 10005⟩ 5 10005 rfl rfl).2.2.2.2
      10005 rfl (by norm_num)).1⟩

/-- Inserting a key already present in a key-sorted association list is a
no-op (`entry(k).or_insert(v)` keeps the stored value). -/
theorem btreeInsertIfAbsent_mem (k : ℕ) (v : List ℕ) :
    ∀ l : List (ℕ × List ℕ),
      List.Pairwise (fun a b => a.1 < b.1) l → k ∈ l.map Prod.fst →
      btreeInsertIfAbsent k v l = l := by
  intro l
  induction l with
  | nil => intro _ hm; simp at hm
  | cons hd tl ih =>
    intro hp hm
    obtain ⟨k₁, v₁⟩ := hd
    rw [List.pairwise_cons] at hp
    unfold btreeInsertIfAbsent
    by_cases h1 : k < k₁
    · exfalso
      simp only [List.map_cons, List.mem_cons, List.mem_map] at hm
      rcases hm with hm | ⟨b, hb, hbk⟩
      · omega
      · have := hp.1 b hb
        omega
    · by_cases h2 : k = k₁
      · simp [h1, h2]
      · simp only [List.map_cons, List.mem_cons, List.mem_map] at hm
        rcases hm with hm | hm
        · exact absurd hm.symm (Ne.symm h2)
        · simp only [h1, if_false, h2]
          rw [ih hp.2 (List.mem_map.mpr hm)]

/-- Inserting the same key twice is the same as inserting it once. -/
theorem btreeInsertIfAbsent_idem (k : ℕ) (v : List ℕ) :
    ∀ l : List (ℕ × List ℕ),
      btreeInsertIfAbsent k v (btreeInsertIfAbsent k v l) = btreeInsertIfAbsent k v l := by
  intro l
  induction l with
  | nil => simp [btreeInsertIfAbsent]
  | cons hd tl ih =>
    obtain ⟨k₁, v₁⟩ := hd
    by_cases h1 : k < k₁
    · simp [btreeInsertIfAbsent, h1, lt_irrefl]
    · by_cases h2 : k = k₁
      · simp [btreeInsertIfAbsent, h1, h2]
      · simp only [btreeInsertIfAbsent, h1, if_false, h2]
        simp [h1, h2, ih]

/-- C10: delivering a packet whose sequence is already buffered leaves the
stored frame bytes unchanged (first-received wins), and enqueueing the same
(sequence, frame) packet twice yields the same buffered map as once. -/
theorem C10_duplicate_packet_first_wins :
    (∀ (stream : InboundVoiceStream) (seq_num : ℕ) (frame : List ℕ) (now : ℕ),
      List.Pairwise (fun a b => a.1 < b.1) stream.buffered →
      seq_num ∈ stream.buffered.map Prod.fst →
      ((queue_inbound_voice stream seq_num frame now).1).buffered = stream.buffered)
    ∧ (∀ (stream : InboundVoiceStream) (seq_num : ℕ) (frame : List ℕ) (t1 t2 : ℕ),
      ((queue_inbound_voice ((queue_inbound_voice stream seq_num frame t1).1)
          seq_num frame t2).1).buffered
        = ((queue_inbound_voice stream seq_num frame t1).1).buffered) := by
  constructor
  · intro stream seq_num frame now hp hm
    unfold queue_inbound_voice
    cases he : stream.expected_seq with
    | none => simp [btreeInsertIfAbsent_mem seq_num frame _ hp hm]
    | some expected =>
      by_cases hl : seq_num < expected
      · simp [hl]
      · simp [hl, btreeInsertIfAbsent_mem seq_num frame _ hp hm]
  · intro stream seq_num frame t1 t2
    unfold queue_inbound_voice
    cases he : stream.expected_seq with
    | none =>
      simp [btreeInsertIfAbsent_idem]
    | some expected =>
      by_cases hl : seq_num < expected
      · simp [hl, he]
      · simp [hl, he, btreeInsertIfAbsent_idem]

/-- Witness for C10 at a concrete stream. -/
theorem C10_duplicate_packet_first_wins_witness :
    ((queue_inbound_voice ⟨some 0, false, [(0, [7]), (960, [8])], [], some 4⟩
        960 [9] 11).1).buffered = [(0, [7]), (960, [8])]
    ∧ ((queue_inbound_voice ((queue_inbound_voice
          ⟨none, false, [], [], none⟩ 960 [8] 4).1) 960 [8] 9).1).buffered
        = ((queue_inbound_voice ⟨none, false, [], [], none⟩ 960 [8] 4).1).buffered := by
  refine ⟨?_, C10_duplicate_packet_first_wins.2 _ 960 [8] 4 9⟩
  have := C10_duplicate_packet_first_wins.1
    ⟨some 0, false, [(0, [7]), (960, [8])], [], some 4⟩ 960 [9] 11
    (by simp) (by simp)
  exact this

/-- Length of the consecutive buffered map. -/
theorem consecutiveBuffered_length (fs : List (List ℕ)) :
    ∀ e, (consecutiveBuffered e fs).length = fs.length := by
  induction fs with
  | nil => intro e; rfl
  | cons f fs ih => intro e; simp [consecutiveBuffered, ih]

/-- Started drain over a buffered map of consecutive sequences starting at
the expected one pops every frame in increasing sequence order and advances
the expected sequence by one step per frame. -/
theorem collect_loop_consecutive (tuning : JitterTuning) (force : Bool)
    (d : List (List ℚ)) (lp : Option ℕ) :
    ∀ (fs : List (List ℕ)) (e fuel : ℕ) (acc : List DecodeAction),
      fs.length < fuel → e + OPUS_SEQ_STEP * fs.length < U64_SIZE →
      collect_loop tuning force fuel ⟨some e, true, consecutiveBuffered e fs, d, lp⟩ acc =
        (acc.reverse ++ fs.map DecodeAction.Frame,
          ⟨some (e + OPUS_SEQ_STEP * fs.length), true, [], d, lp⟩) := by
  intro fs
  induction fs with
  | nil =>
    intro e fuel acc hfuel _
    obtain ⟨m, rfl⟩ : ∃ m, fuel = m + 1 := ⟨fuel - 1, by omega⟩
    simp [collect_loop, consecutiveBuffered, btreeRemove, btreeMinKey]
  | cons f fs ih =>
    intro e fuel acc hfuel hbound
    obtain ⟨m, rfl⟩ : ∃ m, fuel = m + 1 := ⟨fuel - 1, by omega⟩
    have hstep : OPUS_SEQ_STEP = 960 := rfl
    have hwrap : wrappingAdd64 e OPUS_SEQ_STEP = e + OPUS_SEQ_STEP := by
      unfold wrappingAdd64
      apply Nat.mod_eq_of_lt
      have : (e + OPUS_SEQ_STEP * (f :: fs).length) = e + 960 * (fs.length + 1) := by
        simp [hstep]
      simp only [hstep] at hbound ⊢
      simp only [List.length_cons] at hbound
      have hU : U64_SIZE = 2 ^ 64 := rfl
      omega
    have hih := ih (e + OPUS_SEQ_STEP) m (DecodeAction.Frame f :: acc)
      (by simpa using Nat.lt_of_succ_lt_succ hfuel)
      (by
        simp only [List.length_cons] at hbound
        have : e + OPUS_SEQ_STEP + OPUS_SEQ_STEP * fs.length
            = e + OPUS_SEQ_STEP * (fs.length + 1) := by ring
        omega)
    have harith : e + OPUS_SEQ_STEP + OPUS_SEQ_STEP * fs.length
        = e + OPUS_SEQ_STEP * (fs.length + 1) := by ring
    simp only [collect_loop, consecutiveBuffered, btreeRemove, eq_self_iff_true, if_true]
    rw [hwrap, hih, harith]
    simp

/-- C3: a stream produces no decode actions before its buffered set reaches
target_frames distinct sequences; on the first drain after the target-th
frame is buffered, consecutively buffered frames are emitted in increasing
sequence order, advancing the expected sequence by 960 per frame. -/
theorem C3_jitter_warmup :
    (∀ (fuel : ℕ) (stream : InboundVoiceStream) (force : Bool) (tuning : JitterTuning),
      stream.started = false →
      stream.buffered.length < tuning.target_frames →
      (collect_decode_actions fuel stream force tuning).1 = [])
    ∧ (∀ (fs : List (List ℕ)) (e fuel : ℕ) (d : List (List ℚ)) (lp : Option ℕ)
        (force : Bool) (tuning : JitterTuning),
      tuning.target_frames ≤ fs.length → fs.length < fuel →
      e + OPUS_SEQ_STEP * fs.length < U64_SIZE →
      collect_decode_actions fuel ⟨some e, false, consecutiveBuffered e fs, d, lp⟩
          force tuning =
        (fs.map DecodeAction.Frame,
          ⟨some (e + OPUS_SEQ_STEP * fs.length), true, [], d, lp⟩)) := by
  constructor
  · intro fuel stream force tuning hstart hlen
    unfold collect_decode_actions
    have : ¬ stream.buffered.length ≥ tuning.target_frames := by omega
    simp [hstart, this]
  · intro fs e fuel d lp force tuning htarget hfuel hbound
    unfold collect_decode_actions
    have hlen : (consecutiveBuffered e fs).length = fs.length :=
      consecutiveBuffered_length fs e
    have hge : (consecutiveBuffered e fs).length ≥ tuning.target_frames := by omega
    simp only [hge, Bool.not_false, decide_eq_true_eq]
    simp only [decide_eq_true_eq] at hge
    simp [hge]
    simpa using collect_loop_consecutive tuning force d lp fs e fuel [] hfuel hbound

/-- Witness for C3: scenario S4 — target 4, max 10, in-order sequences
0, 960, 1920, 2880 fed through queue_inbound_voice; drains before the
fourth frame yield nothing, the drain after it yields the four frames in
order and advances the expected sequence to 3840. -/
theorem C3_jitter_warmup_witness :
    ((queue_inbound_voice ((queue_inbound_voice ((queue_inbound_voice
        ((queue_inbound_voice ⟨none, false, [], [], none⟩ 0 [0] 100).1)
        960 [1] 101).1) 1920 [2] 102).1) 2880 [3] 103).1).buffered
      = consecutiveBuffered 0 [[0], [1], [2], [3]]
    ∧ (collect_decode_actions 16
        ⟨some 0, false, consecutiveBuffered 0 [[0], [1], [2]], [], some 102⟩
        false ⟨4, 10, 4, 10, 2⟩).1 = []
    ∧ collect_decode_actions 16
        ⟨some 0, false, consecutiveBuffered 0 [[0], [1], [2], [3]], [], some 103⟩
        false ⟨4, 10, 4, 10, 2⟩ =
      ([DecodeAction.Frame [0], DecodeAction.Frame [1],
        DecodeAction.Frame [2], DecodeAction.Frame [3]],
        ⟨some 3840, true, [], [], some 103⟩) := by
  refine ⟨by decide, ?_, ?_⟩
  · exact C3_jitter_warmup.1 16
      ⟨some 0, false, consecutiveBuffered 0 [[0], [1], [2]], [], some 102⟩
      false ⟨4, 10, 4, 10, 2⟩ rfl (by decide)
  · have := C3_jitter_warmup.2 [[0], [1], [2], [3]] 0 16 [] (some 103)
      false ⟨4, 10, 4, 10, 2⟩ (by decide) (by decide) (by decide)
    simpa using this

/-- Dropping strictly fewer elements than the length keeps the last element. -/
theorem getLast?_drop_of_lt {α : Type} (l : List α) (k : ℕ) (h : k < l.length) :
    (l.drop k).getLast? = l.getLast? := by
  conv_rhs => rw [← List.take_append_drop k l]
  rw [List.getLast?_append]
  have hne : l.drop k ≠ [] := by
    intro hc
    have := congrArg List.length hc
    simp [List.length_drop] at this
    omega
  rw [List.getLast?_eq_getLast (l.drop k) hne]
  rfl

/-- Appending a possibly-truncated non-empty chunk keeps its last sample. -/
theorem append_kept_getLast (q' samples : List ℚ) (hne : samples ≠ []) (avail : ℕ)
    (hav : 0 < avail) :
    (q' ++ (if samples.length > avail then
        samples.drop (samples.length - avail) else samples)).getLast? =
      samples.getLast? := by
  by_cases h : samples.length > avail
  · rw [if_pos h, List.getLast?_append,
      getLast?_drop_of_lt _ _ (by omega), List.getLast?_eq_getLast samples hne]
    rfl
  · rw [if_neg h, List.getLast?_append, List.getLast?_eq_getLast samples hne]
    rfl

/-- C9 (amended): the soundboard queue never exceeds the 20-second cap
(960000 samples at 48 kHz); an enqueue that fits is a plain append; and
every non-empty enqueue keeps the newest incoming sample at the back of
the queue.  (When the cap would be exceeded, the source clears a full
queue outright and otherwise drops the oldest samples of the incoming
chunk, not the oldest queued samples — see the counterexample.) -/
theorem C9_soundboard_queue_cap :
    (∀ queue samples_48k : List ℚ,
      queue.length ≤ SOUNDBOARD_QUEUE_LIMIT_SAMPLES →
      (enqueue_soundboard_samples queue samples_48k).length ≤ SOUNDBOARD_QUEUE_LIMIT_SAMPLES)
    ∧ (∀ queue samples_48k : List ℚ, samples_48k ≠ [] →
      queue.length < SOUNDBOARD_QUEUE_LIMIT_SAMPLES →
      queue.length + samples_48k.length ≤ SOUNDBOARD_QUEUE_LIMIT_SAMPLES →
      enqueue_soundboard_samples queue samples_48k = queue ++ samples_48k)
    ∧ (∀ queue samples_48k : List ℚ, samples_48k ≠ [] →
      (enqueue_soundboard_samples queue samples_48k).getLast? = samples_48k.getLast?) := by
  have hpos : 0 < SOUNDBOARD_QUEUE_LIMIT_SAMPLES := by
    norm_num [SOUNDBOARD_QUEUE_LIMIT_SAMPLES, OPUS_SAMPLE_RATE]
  refine ⟨?_, ?_, ?_⟩
  · intro queue samples hq
    unfold enqueue_soundboard_samples
    by_cases hs : samples.isEmpty
    · simpa [hs] using hq
    · simp only [hs, Bool.false_eq_true, if_false]
      by_cases h1 : queue.length ≥ SOUNDBOARD_QUEUE_LIMIT_SAMPLES
      · simp only [h1, if_true, List.length_nil, Nat.sub_zero]
        by_cases h2 : samples.length > SOUNDBOARD_QUEUE_LIMIT_SAMPLES
        · rw [if_pos h2, List.nil_append, List.length_drop]
          omega
        · rw [if_neg h2, List.nil_append]
          omega
      · simp only [h1, if_false]
        by_cases h2 : samples.length > SOUNDBOARD_QUEUE_LIMIT_SAMPLES - queue.length
        · rw [if_pos h2, List.length_append, List.length_drop]
          omega
        · rw [if_neg h2, List.length_append]
          omega
  · intro queue samples hne hlt hsum
    unfold enqueue_soundboard_samples
    have hs : samples.isEmpty = false := by simpa [List.isEmpty_iff] using hne
    have h1 : ¬ queue.length ≥ SOUNDBOARD_QUEUE_LIMIT_SAMPLES := by omega
    have h2 : ¬ samples.length > SOUNDBOARD_QUEUE_LIMIT_SAMPLES - queue.length := by omega
    simp [hs, h1, h2]
  · intro queue samples hne
    unfold enqueue_soundboard_samples
    have hs : samples.isEmpty = false := by simpa [List.isEmpty_iff] using hne
    simp only [hs, Bool.false_eq_true, if_false]
    by_cases h1 : queue.length ≥ SOUNDBOARD_QUEUE_LIMIT_SAMPLES
    · simp only [h1, if_true, List.length_nil, Nat.sub_zero]
      exact append_kept_getLast [] samples hne _ hpos
    · simp only [h1, if_false]
      exact append_kept_getLast queue samples hne _ (by omega)

/-- Witness for C9 at concrete queues. -/
theorem C9_soundboard_queue_cap_witness :
    (enqueue_soundboard_samples [5, 6] [1, 2, 3]).length ≤ SOUNDBOARD_QUEUE_LIMIT_SAMPLES
    ∧ enqueue_soundboard_samples [5, 6] [1, 2, 3] = [5, 6, 1, 2, 3]
    ∧ (enqueue_soundboard_samples [5, 6] [1, 2, 3]).getLast? = some 3 := by
  refine ⟨C9_soundboard_queue_cap.1 [5, 6] [1, 2, 3] (by
      norm_num [SOUNDBOARD_QUEUE_LIMIT_SAMPLES, OPUS_SAMPLE_RATE]), ?_, ?_⟩
  · have := C9_soundboard_queue_cap.2.1 [5, 6] [1, 2, 3] (by decide)
      (by norm_num [SOUNDBOARD_QUEUE_LIMIT_SAMPLES, OPUS_SAMPLE_RATE])
      (by norm_num [SOUNDBOARD_QUEUE_LIMIT_SAMPLES, OPUS_SAMPLE_RATE])
    simpa using this
  · have := C9_soundboard_queue_cap.2.2 [5, 6] [1, 2, 3] (by decide)
    simpa using this

/-- C9 counterexample: with the queue exactly at the cap, enqueueing one
sample clears the whole queue (result length 1), while truncating the
oldest queued samples to make room — the behaviour the claim states —
would leave a full queue. -/
theorem C9_counterexample :
    (enqueue_soundboard_samples (List.replicate SOUNDBOARD_QUEUE_LIMIT_SAMPLES (0 : ℚ))
        [1]).length = 1
    ∧ (enqueue_drop_oldest (List.replicate SOUNDBOARD_QUEUE_LIMIT_SAMPLES (0 : ℚ))
        [1]).length = SOUNDBOARD_QUEUE_LIMIT_SAMPLES
    ∧ (1 : ℕ) ≠ SOUNDBOARD_QUEUE_LIMIT_SAMPLES := by
  have hq : (List.replicate SOUNDBOARD_QUEUE_LIMIT_SAMPLES (0 : ℚ)).length
      = SOUNDBOARD_QUEUE_LIMIT_SAMPLES := List.length_replicate _ _
  refine ⟨?_, ?_, by norm_num [SOUNDBOARD_QUEUE_LIMIT_SAMPLES, OPUS_SAMPLE_RATE]⟩
  · unfold enqueue_soundboard_samples
    have h1 : (List.replicate SOUNDBOARD_QUEUE_LIMIT_SAMPLES (0 : ℚ)).length
        ≥ SOUNDBOARD_QUEUE_LIMIT_SAMPLES := le_of_eq hq.symm
    have h2 : ¬ ([1] : List ℚ).length > SOUNDBOARD_QUEUE_LIMIT_SAMPLES - 0 := by
      norm_num [SOUNDBOARD_QUEUE_LIMIT_SAMPLES, OPUS_SAMPLE_RATE]
    simp only [List.isEmpty_cons, Bool.false_eq_true, if_false, h1, if_true,
      List.length_nil, Nat.sub_zero]
    simp only [Nat.sub_zero] at h2
    rw [if_neg h2]
    rfl
  · unfold enqueue_drop_oldest
    rw [List.length_drop, List.length_append, hq]
    simp only [List.length_cons, List.length_nil]
    have hpos : 0 < SOUNDBOARD_QUEUE_LIMIT_SAMPLES := by
      norm_num [SOUNDBOARD_QUEUE_LIMIT_SAMPLES, OPUS_SAMPLE_RATE]
    omega

/-- The prefill threshold is at least eight samples. -/
theorem output_prefill_samples_pos (sample_rate channels : ℕ) :
    8 ≤ output_prefill_samples sample_rate channels := by
  unfold output_prefill_samples
  have h1 : 1 ≤ max channels 1 := le_max_right channels 1
  have : 8 ≤ max channels 1 * 8 := by omega
  omega

/-- A re-armed gate over an empty queue never changes the state again. -/
theorem output_run_stuck (sample_rate channels : ℕ) :
    ∀ (n : ℕ) (st : OutputGateState), st.primed = false → st.queue = [] →
      output_run sample_rate channels n st = st := by
  intro n
  induction n with
  | zero => intro st _ _; rfl
  | succ m ih =>
    intro st hp hq
    have hlt : st.queue.length < output_prefill_samples sample_rate channels := by
      rw [hq]
      have := output_prefill_samples_pos sample_rate channels
      simp
      omega
    unfold output_run
    have hstep : output_frame_step sample_rate channels st = (st, 0) := by
      unfold output_frame_step
      simp [hp, hlt]
    rw [hstep]
    exact ih st hp hq

/-- C8 (amended): until the queue first reaches the source's prefill
threshold `max(sample_rate × 45 / 1000, channels × 8)` (flooring integer
division) the callback emits silence and pops nothing; once primed — or as
soon as the threshold is reached — a non-empty queue is popped, priming
the gate and ending any underflow; a pop from an empty queue re-arms the
gate and counts an underflow event only if none is in progress; and a
whole run of callback frames over a continuously empty queue counts
exactly one underflow event. -/
theorem C8_prefill_gate :
    (∀ (sample_rate channels : ℕ) (st : OutputGateState),
      st.primed = false →
      st.queue.length < output_prefill_samples sample_rate channels →
      output_frame_step sample_rate channels st = (st, 0))
    ∧ (∀ (sample_rate channels : ℕ) (st : OutputGateState) (v : ℚ) (rest : List ℚ),
      st.queue = v :: rest →
      (st.primed = true ∨ output_prefill_samples sample_rate channels ≤ st.queue.length) →
      output_frame_step sample_rate channels st =
        ({ st with queue := rest, primed := true, underflowing := false },
          max (-1) (min 1 v)))
    ∧ (∀ (sample_rate channels : ℕ) (st : OutputGateState),
      st.primed = true → st.queue = [] →
      (output_frame_step sample_rate channels st).1 =
        { st with
            primed := false
            underflowing := true
            underflow_events :=
              st.underflow_events + (if st.underflowing then 0 else 1) })
    ∧ (∀ (sample_rate channels n : ℕ) (st : OutputGateState),
      st.primed = true → st.queue = [] → st.underflowing = false → 1 ≤ n →
      (output_run sample_rate channels n st).underflow_events =
        st.underflow_events + 1) := by
  refine ⟨?_, ?_, ?_, ?_⟩
  · intro sr ch st hp hlt
    unfold output_frame_step
    simp [hp, hlt]
  · intro sr ch st v rest hq hopen
    unfold output_frame_step
    rcases hopen with hp | hge
    · simp [hp, hq]
    · rw [hq] at hge
      simp only [List.length_cons] at hge
      have hn : ¬ (rest.length + 1 < output_prefill_samples sr ch) := by omega
      simp [hq, hn]
  · intro sr ch st hp hq
    unfold output_frame_step
    by_cases hu : st.underflowing = true
    · simp [hp, hq, hu]
    · simp only [Bool.not_eq_true] at hu
      simp [hp, hq, hu]
  · intro sr ch n st hp hq hu hn
    obtain ⟨m, rfl⟩ : ∃ m, n = m + 1 := ⟨n - 1, by omega⟩
    unfold output_run
    have hstep : (output_frame_step sr ch st).1 =
        { st with
            primed := false
            underflowing := true
            underflow_events := st.underflow_events + 1 } := by
      unfold output_frame_step
      simp [hp, hq, hu]
    rw [hstep, output_run_stuck sr ch m _ rfl (by simp [hq])]

/-- Witness for C8 at concrete states. -/
theorem C8_prefill_gate_witness :
    output_frame_step 48000 2 ⟨[5], false, false, 0⟩ = (⟨[5], false, false, 0⟩, 0)
    ∧ output_frame_step 48000 2 ⟨[1/2], true, false, 3⟩ =
        (⟨[], true, false, 3⟩, max (-1) (min 1 (1/2)))
    ∧ (output_frame_step 48000 2 ⟨[], true, false, 3⟩).1 = ⟨[], false, true, 3 + 1⟩
    ∧ (output_run 48000 2 5 ⟨[], true, false, 7⟩).underflow_events = 7 + 1 := by
  refine ⟨C8_prefill_gate.1 48000 2 ⟨[5], false, false, 0⟩ rfl (by decide), ?_, ?_,
    C8_prefill_gate.2.2.2 48000 2 5 ⟨[], true, false, 7⟩ rfl rfl rfl (by decide)⟩
  · have := C8_prefill_gate.2.1 48000 2 ⟨[1/2], true, false, 3⟩ (1/2) [] rfl (Or.inl rfl)
    simpa using this
  · have := C8_prefill_gate.2.2.1 48000 2 ⟨[], true, false, 3⟩ rfl rfl
    simpa using this

/-- C8 counterexample: at 44100 Hz mono the claim's threshold is
`ceil(44100 × 45 ms) = 1985` samples, but with 1984 samples queued and the
gate not yet primed the callback already pops and emits the queued sample
rather than silence (the source gate uses the flooring division
`44100 * 45 / 1000 = 1984`). -/
theorem C8_counterexample :
    1984 < spec_prefill_ceil 44100
    ∧ (output_frame_step 44100 1 ⟨List.replicate 1984 (1 : ℚ), false, false, 0⟩).2 = 1
    ∧ (output_frame_step 44100 1
        ⟨List.replicate 1984 (1 : ℚ), false, false, 0⟩).1.queue.length = 1983 := by
  refine ⟨by norm_num [spec_prefill_ceil, PLAYOUT_PREFILL_MS], ?_, ?_⟩
  · have hrep : List.replicate 1984 (1 : ℚ) = 1 :: List.replicate 1983 1 := rfl
    unfold output_frame_step
    rw [hrep]
    norm_num [output_prefill_samples, PLAYOUT_PREFILL_MS]
  · have hrep : List.replicate 1984 (1 : ℚ) = 1 :: List.replicate 1983 1 := rfl
    unfold output_frame_step
    rw [hrep]
    norm_num [output_prefill_samples, PLAYOUT_PREFILL_MS]

/-- Accumulating a frame preserves the output buffer's length. -/
theorem addFrame_length {α : Type} [Add α] :
    ∀ (out f : List α), (addFrame out f).length = out.length := by
  intro out
  induction out with
  | nil => intro f; cases f <;> rfl
  | cons o out ih =>
    intro f
    cases f with
    | nil => rfl
    | cons s f => simp [addFrame, ih]

/-- The accumulation loop preserves the output buffer's length. -/
theorem mix_sum_loop_length {α : Type} [Add α] :
    ∀ (fs : List (List α)) (a : ℕ) (out : List α),
      (mix_sum_loop fs a out).2.length = out.length := by
  intro fs
  induction fs with
  | nil => intro a out; rfl
  | cons f fs ih =>
    intro a out
    by_cases h : f.isEmpty <;> simp [mix_sum_loop, h, ih, addFrame_length]

/-- Pointwise reading of one frame accumulation. -/
theorem addFrame_getD :
    ∀ (out f : List ℚ) (k : ℕ), k < out.length →
      (addFrame out f).getD k 0 = out.getD k 0 + f.getD k 0 := by
  intro out
  induction out with
  | nil => intro f k hk; simp at hk
  | cons o out ih =>
    intro f k hk
    cases f with
    | nil => simp [addFrame]
    | cons s f =>
      cases k with
      | zero => simp [addFrame]
      | succ k =>
        simp only [addFrame, List.getD_cons_succ]
        exact ih f k (by simpa using Nat.lt_of_succ_lt_succ hk)

/-- If the accumulation loop reports no active frame, every frame was empty. -/
theorem mix_sum_loop_active_eq_zero {α : Type} [Add α] :
    ∀ (fs : List (List α)) (a : ℕ) (out : List α),
      (mix_sum_loop fs a out).1 = 0 → a = 0 ∧ ∀ f ∈ fs, f.isEmpty = true := by
  intro fs
  induction fs with
  | nil => intro a out h; exact ⟨h, by simp⟩
  | cons f fs ih =>
    intro a out h
    by_cases hf : f.isEmpty
    · simp only [mix_sum_loop, hf, if_true] at h
      obtain ⟨ha, hrest⟩ := ih a out h
      exact ⟨ha, by
        intro g hg
        rcases List.mem_cons.mp hg with rfl | hg
        · exact hf
        · exact hrest g hg⟩
    · simp only [mix_sum_loop, hf, Bool.false_eq_true, if_false] at h
      obtain ⟨ha, -⟩ := ih (a + 1) (addFrame out f) h
      omega

/-- The per-index sum over all-empty frames is zero. -/
theorem frameSum_of_all_empty :
    ∀ (fs : List (List ℚ)) (k : ℕ), (∀ f ∈ fs, f.isEmpty = true) →
      frameSum fs k = 0 := by
  intro fs
  induction fs with
  | nil => intro k _; rfl
  | cons f fs ih =>
    intro k h
    have hf : f = [] := List.isEmpty_iff.mp (h f (List.mem_cons_self f fs))
    have hrest := ih k (fun g hg => h g (List.mem_cons_of_mem f hg))
    simp [frameSum, hf] at hrest ⊢
    simpa [frameSum] using hrest

/-- Pointwise reading of the whole accumulation loop: each output slot holds
its initial value plus the per-index sum of the frames. -/
theorem mix_sum_loop_getD :
    ∀ (fs : List (List ℚ)) (a : ℕ) (out : List ℚ) (k : ℕ), k < out.length →
      (mix_sum_loop fs a out).2.getD k 0 = out.getD k 0 + frameSum fs k := by
  intro fs
  induction fs with
  | nil => intro a out k _; simp [mix_sum_loop, frameSum]
  | cons f fs ih =>
    intro a out k hk
    by_cases hf : f.isEmpty
    · have hf' : f = [] := List.isEmpty_iff.mp hf
      simp only [mix_sum_loop, hf, if_true]
      rw [ih a out k hk]
      simp [frameSum, hf']
    · simp only [mix_sum_loop, hf, Bool.false_eq_true, if_false]
      rw [ih (a + 1) (addFrame out f) k (by rw [addFrame_length]; exact hk)]
      rw [addFrame_getD out f k hk]
      simp [frameSum]
      ring

/-- The limiter pass maps each summed sample through headroom scaling,
drive, and the soft limiter. -/
theorem mix_process_fst (headroom_gain norm limiter_drive : ℚ) :
    ∀ l : List ℚ,
      (mix_process headroom_gain norm limiter_drive l).1 =
        l.map (fun s => soft_limiter (s * (headroom_gain / norm) * limiter_drive)) := by
  intro l
  induction l with
  | nil => rfl
  | cons s rest ih => simp [mix_process, ih]

/-- Reading a mapped list below its length. -/
theorem getD_map_lt (g : ℚ → ℚ) (l : List ℚ) (k : ℕ) (hk : k < l.length) :
    (l.map g).getD k 0 = g (l.getD k 0) := by
  rw [List.getD_eq_getElem?_getD, List.getD_eq_getElem?_getD, List.getElem?_map,
    List.getElem?_eq_getElem hk]
  rfl

/-- C5 (amended): each output sample of mix_mono_frames equals
`sl(sum · (headroom_gain / norm) · drive)` where `sl` is the source's
piecewise limiter — the identity for `|x| ≤ 1` and `x / (1 + 0.5·|x|)`
beyond — and `norm` stands for `max(√N, 1)`.  (The spec's unconditional
`softlimit(x) = x / (1 + 0.5·|x|)` is wrong on the inner region — see the
counterexample.) -/
theorem C5_mix_norm (frames : List (List ℚ)) (output0 : List ℚ)
    (headroom_gain limiter_drive norm : ℚ) (k : ℕ) (hk : k < output0.length) :
    (mix_mono_frames frames output0 headroom_gain limiter_drive norm).1.getD k 0 =
      soft_limiter (frameSum frames k * (headroom_gain / norm) * limiter_drive) := by
  unfold mix_mono_frames
  by_cases h : (mix_sum_loop frames 0 (List.replicate output0.length (0 : ℚ))).1 = 0
  · rw [if_pos h]
    obtain ⟨-, hall⟩ := mix_sum_loop_active_eq_zero frames 0 _ h
    rw [frameSum_of_all_empty frames k hall]
    simp [soft_limiter]
  · rw [if_neg h]
    have hlen : (mix_sum_loop frames 0
        (List.replicate output0.length (0 : ℚ))).2.length = output0.length := by
      rw [mix_sum_loop_length]
      exact List.length_replicate _ _
    rw [mix_process_fst, getD_map_lt _ _ k (by rw [hlen]; exact hk),
      mix_sum_loop_getD frames 0 _ k (by
        rw [List.length_replicate]
        exact hk)]
    simp

/-- Witness for C5 at a concrete two-frame mix. -/
theorem C5_mix_norm_witness :
    (mix_mono_frames [[1/2], [1/4]] [0] (9/10) (27/20) (3/2)).1.getD 0 0 =
      soft_limiter (frameSum [[1/2], [1/4]] 0 * ((9/10) / (3/2)) * (27/20)) :=
  C5_mix_norm [[1/2], [1/4]] [0] (9/10) (27/20) (3/2) 0 (by decide)

/-- C5 counterexample: for a single frame of constant 0.5 (so `√N = 1`
exactly, with the claim's headroom 0.90 and drive 1.35), the mixer emits
`0.6075 = 243/400` — the pre-limiter value unchanged, because the source
limiter is the identity for `|x| ≤ 1` — while the claim's
`softlimit(sum·(headroom/√N)·drive) = x/(1+0.5|x|)` value is `486/1043`;
the two differ by ≈ 0.14, far beyond the claimed 0.01. -/
theorem C5_counterexample :
    (mix_mono_frames [[1/2]] [0] (9/10) (27/20) 1).1.getD 0 0 = 243/400
    ∧ softlimit_spec (frameSum [[1/2]] 0 * ((9/10) / 1) * (27/20)) = 486/1043
    ∧ (243/400 : ℚ) ≠ (486/1043 : ℚ) := by
  have hsum : frameSum [[1/2]] 0 = (1/2 : ℚ) := by
    simp [frameSum]
  refine ⟨?_, ?_, by norm_num⟩
  · have h1 : (mix_mono_frames [[1/2]] [0] (9/10) (27/20) 1).1 =
        [soft_limiter (((0 : ℚ) + 1/2) * ((9/10) / 1) * (27/20))] := by
      simp [mix_mono_frames, mix_sum_loop, addFrame, mix_process]
    rw [h1]
    have harg : ((0 : ℚ) + 1/2) * ((9/10) / 1) * (27/20) = 243/400 := by norm_num
    simp only [List.getD_cons_zero, harg]
    unfold soft_limiter
    rw [if_pos (by rw [abs_of_pos] <;> norm_num)]
  · rw [hsum]
    have harg : ((1 : ℚ)/2) * ((9/10) / 1) * (27/20) = 243/400 := by norm_num
    rw [harg]
    unfold softlimit_spec
    rw [abs_of_pos (by norm_num)]
    norm_num

/-- Code-point ranges of the badge char class. -/
theorem badge_char_toNat (c : Char) (h : isBadgeByteChar c = true) :
    (97 ≤ c.toNat ∧ c.toNat ≤ 122) ∨ (48 ≤ c.toNat ∧ c.toNat ≤ 57) ∨
      c.toNat = 45 ∨ c.toNat = 95 := by
  simp only [isBadgeByteChar, Bool.or_eq_true, Bool.and_eq_true, decide_eq_true_eq,
    Char.le_def] at h
  rcases h with ((h | h) | rfl) | rfl
  · exact Or.inl h
  · exact Or.inr (Or.inl h)
  · exact Or.inr (Or.inr (Or.inl (by decide)))
  · exact Or.inr (Or.inr (Or.inr (by decide)))

/-- A badge-class char is not whitespace. -/
theorem badge_char_not_whitespace (c : Char) (h : isBadgeByteChar c = true) :
    c.isWhitespace = false := by
  have hv := badge_char_toNat c h
  have hsp : ¬ c = ' ' := by rintro rfl; revert hv; decide
  have hth : ¬ c = '\t' := by rintro rfl; revert hv; decide
  have hcr : ¬ c = '\x0d' := by rintro rfl; revert hv; decide
  have hlf : ¬ c = '\n' := by rintro rfl; revert hv; decide
  simp [Char.isWhitespace, hsp, hth, hcr, hlf]

/-- A badge-class char is already lowercase for the ASCII case map. -/
theorem badge_char_lower (c : Char) (h : isBadgeByteChar c = true) :
    asciiLowerChar c = c := by
  have hv := badge_char_toNat c h
  have hne : ¬ (('A' ≤ c && c ≤ 'Z') = true) := by
    simp only [Bool.and_eq_true, decide_eq_true_eq, Char.le_def, not_and]
    intro hA hZ
    have hA' : 65 ≤ c.toNat := hA
    have hZ' : c.toNat ≤ 90 := hZ
    omega
  unfold asciiLowerChar
  rw [if_neg hne]

/-- A badge-class char is not the comma separator. -/
theorem badge_char_ne_comma (c : Char) (h : isBadgeByteChar c = true) : c ≠ ',' := by
  rintro rfl
  exact absurd h (by decide)

/-- Mapping a function that fixes every member is the identity. -/
theorem map_self_of_mem {α : Type} (f : α → α) :
    ∀ l : List α, (∀ a ∈ l, f a = a) → l.map f = l := by
  intro l
  induction l with
  | nil => intro _; rfl
  | cons a l ih =>
    intro h
    simp only [List.map_cons, h a (List.mem_cons_self a l),
      ih (fun b hb => h b (List.mem_cons_of_mem a hb))]

/-- Badge-class strings lose nothing to a leading-whitespace strip. -/
theorem dropWhile_ws_of_badge :
    ∀ l : List Char, (∀ ch ∈ l, isBadgeByteChar ch = true) →
      l.dropWhile Char.isWhitespace = l := by
  intro l h
  cases l with
  | nil => rfl
  | cons a l =>
    rw [List.dropWhile_cons,
      badge_char_not_whitespace a (h a (List.mem_cons_self a l))]
    simp

/-- Badge-class strings are trim-stable. -/
theorem rustTrim_of_badge (l : List Char) (h : ∀ ch ∈ l, isBadgeByteChar ch = true) :
    rustTrim l = l := by
  unfold rustTrim
  rw [dropWhile_ws_of_badge l h,
    dropWhile_ws_of_badge l.reverse (fun ch hch => h ch (List.mem_reverse.mp hch)),
    List.reverse_reverse]

/-- Badge-class strings are lowercase-stable. -/
theorem toAsciiLowercase_of_badge (l : List Char)
    (h : ∀ ch ∈ l, isBadgeByteChar ch = true) : toAsciiLowercase l = l :=
  map_self_of_mem asciiLowerChar l (fun c hc => badge_char_lower c (h c hc))

/-- Unpacking legality of a badge code. -/
theorem isLegalBadgeCode_spec (c : List Char) (h : isLegalBadgeCode c = true) :
    c ≠ [] ∧ c.length ≤ MAX_BADGE_CODE_LEN ∧ ∀ ch ∈ c, isBadgeByteChar ch = true := by
  simp only [isLegalBadgeCode, Bool.and_eq_true, decide_eq_true_eq, List.all_eq_true,
    Bool.not_eq_true'] at h
  refine ⟨?_, h.1.2, h.2⟩
  simpa [List.isEmpty_iff] using h.1.1

/-- Every code normalize_badge_codes keeps is legal. -/
theorem normalize_loop_mem_legal :
    ∀ (xs acc : List (List Char)),
      (∀ c ∈ acc, isLegalBadgeCode c = true) →
      ∀ c ∈ normalize_badge_codes_loop xs acc, isLegalBadgeCode c = true := by
  intro xs
  induction xs with
  | nil => intro acc hacc c hc; exact hacc c hc
  | cons raw rest ih =>
    intro acc hacc c hc
    unfold normalize_badge_codes_loop at hc
    by_cases h1 : ((toAsciiLowercase (rustTrim raw)).isEmpty
        || decide ((toAsciiLowercase (rustTrim raw)).length > MAX_BADGE_CODE_LEN)) = true
    · rw [if_pos h1] at hc
      exact ih acc hacc c hc
    · rw [if_neg h1] at hc
      by_cases h2 : (!(toAsciiLowercase (rustTrim raw)).all isBadgeByteChar) = true
      · rw [if_pos h2] at hc
        exact ih acc hacc c hc
      · rw [if_neg h2] at hc
        by_cases h3 : acc.contains (toAsciiLowercase (rustTrim raw)) = true
        · rw [if_pos h3] at hc
          exact ih acc hacc c hc
        · rw [if_neg h3] at hc
          have hlegal : isLegalBadgeCode (toAsciiLowercase (rustTrim raw)) = true := by
            simp only [Bool.or_eq_true, not_or, Bool.not_eq_true] at h1
            have h2' : (toAsciiLowercase (rustTrim raw)).all isBadgeByteChar = true := by
              revert h2
              cases (toAsciiLowercase (rustTrim raw)).all isBadgeByteChar <;> simp
            simp only [isLegalBadgeCode, Bool.and_eq_true, Bool.not_eq_true']
            refine ⟨⟨h1.1, ?_⟩, h2'⟩
            have := h1.2
            simp only [decide_eq_false_iff_not, not_lt] at this
            simpa using this
          have hacc' : ∀ d ∈ acc ++ [toAsciiLowercase (rustTrim raw)],
              isLegalBadgeCode d = true := by
            intro d hd
            rcases List.mem_append.mp hd with hd | hd
            · exact hacc d hd
            · rw [List.mem_singleton.mp hd]
              exact hlegal
          by_cases h4 : (acc ++ [toAsciiLowercase (rustTrim raw)]).length
              ≥ MAX_BADGE_CODES_PER_USER
          · rw [if_pos h4] at hc
            exact hacc' c hc
          · rw [if_neg h4] at hc
            exact ih _ hacc' c hc

/-- normalize_badge_codes never keeps a duplicate. -/
theorem normalize_loop_nodup :
    ∀ (xs acc : List (List Char)), acc.Nodup →
      (normalize_badge_codes_loop xs acc).Nodup := by
  intro xs
  induction xs with
  | nil => intro acc hacc; exact hacc
  | cons raw rest ih =>
    intro acc hacc
    unfold normalize_badge_codes_loop
    by_cases h1 : ((toAsciiLowercase (rustTrim raw)).isEmpty
        || decide ((toAsciiLowercase (rustTrim raw)).length > MAX_BADGE_CODE_LEN)) = true
    · rw [if_pos h1]; exact ih acc hacc
    · rw [if_neg h1]
      by_cases h2 : (!(toAsciiLowercase (rustTrim raw)).all isBadgeByteChar) = true
      · rw [if_pos h2]; exact ih acc hacc
      · rw [if_neg h2]
        by_cases h3 : acc.contains (toAsciiLowercase (rustTrim raw)) = true
        · rw [if_pos h3]; exact ih acc hacc
        · rw [if_neg h3]
          have hnotmem : toAsciiLowercase (rustTrim raw) ∉ acc := by
            simp only [Bool.not_eq_true] at h3
            simpa using h3
          have hacc' : (acc ++ [toAsciiLowercase (rustTrim raw)]).Nodup := by
            rw [List.nodup_append]
            exact ⟨hacc, List.nodup_singleton _, by
              intro d hd hmem
              rw [List.mem_singleton.mp hmem] at hd
              exact hnotmem hd⟩
          by_cases h4 : (acc ++ [toAsciiLowercase (rustTrim raw)]).length
              ≥ MAX_BADGE_CODES_PER_USER
          · rw [if_pos h4]; exact hacc'
          · rw [if_neg h4]; exact ih _ hacc'

/-- normalize_badge_codes keeps at most five codes. -/
theorem normalize_loop_length :
    ∀ (xs acc : List (List Char)), acc.length < MAX_BADGE_CODES_PER_USER →
      (normalize_badge_codes_loop xs acc).length ≤ MAX_BADGE_CODES_PER_USER := by
  intro xs
  induction xs with
  | nil =>
    intro acc hacc
    simp only [normalize_badge_codes_loop]
    omega
  | cons raw rest ih =>
    intro acc hacc
    unfold normalize_badge_codes_loop
    by_cases h1 : ((toAsciiLowercase (rustTrim raw)).isEmpty
        || decide ((toAsciiLowercase (rustTrim raw)).length > MAX_BADGE_CODE_LEN)) = true
    · rw [if_pos h1]; exact ih acc hacc
    · rw [if_neg h1]
      by_cases h2 : (!(toAsciiLowercase (rustTrim raw)).all isBadgeByteChar) = true
      · rw [if_pos h2]; exact ih acc hacc
      · rw [if_neg h2]
        by_cases h3 : acc.contains (toAsciiLowercase (rustTrim raw)) = true
        · rw [if_pos h3]; exact ih acc hacc
        · rw [if_neg h3]
          by_cases h4 : (acc ++ [toAsciiLowercase (rustTrim raw)]).length
              ≥ MAX_BADGE_CODES_PER_USER
          · rw [if_pos h4]
            simp only [List.length_append, List.length_singleton]
            omega
          · rw [if_neg h4]
            refine ih _ ?_
            simp only [List.length_append, List.length_singleton] at h4 ⊢
            omega

/-- Running the loop over codes it already fully kept changes nothing. -/
theorem normalize_loop_self :
    ∀ (codes acc : List (List Char)),
      (∀ c ∈ codes, isLegalBadgeCode c = true) →
      (acc ++ codes).Nodup →
      acc.length + codes.length ≤ MAX_BADGE_CODES_PER_USER →
      normalize_badge_codes_loop codes acc = acc ++ codes := by
  intro codes
  induction codes with
  | nil => intro acc _ _ _; simp [normalize_badge_codes_loop]
  | cons raw rest ih =>
    intro acc hlegal hnodup hlen
    obtain ⟨hne, hlenc, hchars⟩ :=
      isLegalBadgeCode_spec raw (hlegal raw (List.mem_cons_self raw rest))
    have hcode : toAsciiLowercase (rustTrim raw) = raw := by
      rw [rustTrim_of_badge raw hchars, toAsciiLowercase_of_badge raw hchars]
    have h1 : (raw.isEmpty || decide (raw.length > MAX_BADGE_CODE_LEN)) = false := by
      simp only [Bool.or_eq_false_iff, decide_eq_false_iff_not, not_lt]
      exact ⟨by simpa [List.isEmpty_iff] using hne, hlenc⟩
    have h2 : (!raw.all isBadgeByteChar) = false := by
      simp only [Bool.not_eq_false', List.all_eq_true]
      exact hchars
    have hnotmem : raw ∉ acc := fun hmem =>
      (List.nodup_append.mp hnodup).2.2 hmem (List.mem_cons_self raw rest)
    have h3 : acc.contains raw = false := by
      simpa using hnotmem
    simp only [normalize_badge_codes_loop, hcode, h1, h2, h3, Bool.false_eq_true, if_false]
    by_cases h4 : (acc ++ [raw]).length ≥ MAX_BADGE_CODES_PER_USER
    · rw [if_pos h4]
      have hrest : rest = [] := by
        simp only [List.length_append, List.length_singleton] at h4
        simp only [List.length_cons] at hlen
        have : rest.length = 0 := by omega
        exact List.length_eq_zero.mp this
      rw [hrest]
    · rw [if_neg h4]
      rw [ih (acc ++ [raw])
        (fun c hc => hlegal c (List.mem_cons_of_mem raw hc))
        (by simpa using hnodup)
        (by
          simp only [List.length_append, List.length_singleton]
          simp only [List.length_cons] at hlen
          omega)]
      simp

/-- C7: for every list of legal badge codes, parsing the encoded comment
returns exactly the normalized codes; and parsing returns none if and only
if the comment does not start with the `harmony_badges:v1:` marker. -/
theorem C7_badge_roundtrip :
    (∀ xs : List (List Char), (∀ c ∈ xs, isLegalBadgeCode c = true) →
      parse_badge_comment (encode_badge_comment xs) = some (normalize_badge_codes xs))
    ∧ (∀ s : List Char, parse_badge_comment s = none ↔
      ¬ s.take HARMONY_BADGES_COMMENT_MARKER.length = HARMONY_BADGES_COMMENT_MARKER) := by
  constructor
  · intro xs _hxs
    have hmem : ∀ c ∈ normalize_badge_codes xs, isLegalBadgeCode c = true :=
      normalize_loop_mem_legal xs [] (by simp)
    unfold encode_badge_comment parse_badge_comment stripBadgeMarker
    rw [List.take_left, List.drop_left, if_pos rfl]
    show some (normalize_badge_codes (List.filter (fun c => !c.isEmpty)
        (List.map rustTrim (List.splitOn ','
          ([','].intercalate (normalize_badge_codes xs)))))) =
      some (normalize_badge_codes xs)
    by_cases hNe : normalize_badge_codes xs = []
    · rw [hNe]
      have hnil : List.intercalate [','] ([] : List (List Char)) = [] := by
        simp [List.intercalate]
      rw [hnil, List.splitOn_nil]
      simp only [List.map_cons, List.map_nil]
      have : rustTrim ([] : List Char) = [] := rfl
      rw [this]
      simp [normalize_badge_codes, normalize_badge_codes_loop]
    · have hcomma : ∀ l ∈ normalize_badge_codes xs, ',' ∉ l := by
        intro l hl hc
        exact badge_char_ne_comma ','
          ((isLegalBadgeCode_spec l (hmem l hl)).2.2 ',' hc) rfl
      rw [List.splitOn_intercalate _ ',' hcomma hNe]
      rw [map_self_of_mem rustTrim _ (fun c hc =>
        rustTrim_of_badge c (isLegalBadgeCode_spec c (hmem c hc)).2.2)]
      rw [List.filter_eq_self.mpr (fun c hc => by
        have := (isLegalBadgeCode_spec c (hmem c hc)).1
        simpa [List.isEmpty_iff] using this)]
      have hself := normalize_loop_self (normalize_badge_codes xs) []
        hmem
        (by simpa using normalize_loop_nodup xs [] List.nodup_nil)
        (by
          have := normalize_loop_length xs [] (by
            norm_num [MAX_BADGE_CODES_PER_USER])
          simpa [normalize_badge_codes] using this)
      unfold normalize_badge_codes at hself ⊢
      rw [hself]
      simp
  · intro s
    unfold parse_badge_comment stripBadgeMarker
    by_cases h : s.take HARMONY_BADGES_COMMENT_MARKER.length = HARMONY_BADGES_COMMENT_MARKER
    · rw [if_pos h]
      simp [h]
    · rw [if_neg h]
      simp [h]

/-- Witness for C7: the concrete code list `["vip", "dev"]`. -/
theorem C7_badge_roundtrip_witness :
    parse_badge_comment (encode_badge_comment
        [['v', 'i', 'p'], ['d', 'e', 'v']]) =
      some (normalize_badge_codes [['v', 'i', 'p'], ['d', 'e', 'v']]) :=
  C7_badge_roundtrip.1 [['v', 'i', 'p'], ['d', 'e', 'v']] (by decide)

end Harmony
